import Mathlib

/-!
# pgm-to-rle: the run-length encoder of `main.go`

A shallow embedding of the encoding loop of `main` (`src/main.go`, lines 87-115)
and of the byte-layout contract of spec section 4.2, followed by theorems about
them.

* The flattened image `flat` is a `List Int` (Go `[]int`, filled by `strconv.Atoi`).
* The output `result` is a `List Nat` of bytes (every element is `< 256`).
* Go's `for` loops are functions recursing on a fuel argument.  `none` stands for
  a run-time fault: an index out of range, or the fuel running out.  The
  theorems show that neither happens with the fuel `encode` supplies.
* The cursor `i` is a `Nat`: it starts at `0`, and its only decrement (line 113)
  happens when the literal scan has advanced it at least once (`body_spec`: the
  literal branch is left with `i = start + k`, `k ≥ 1`).
* `genLogo` and `genScreensaver` (lines 141-190) return the frame count and the
  frame tuples they print; their arguments and coordinates are `Int`.
* `parseWidthHeight` and the flatten loop (lines 13-34, 63-85) work on the text
  as a list of code points; `log.Fatal` and a panic are both `none`.
-/

namespace PgmToRle

/-- Go's conversion `byte(x)` of an `int`: the value modulo 256. -/
def toByte (x : Int) : Nat := (x % 256).toNat

/-- A byte read as a signed 8-bit value (two's complement). -/
def toInt8 (b : Nat) : Int := if b < 128 then (b : Int) else (b : Int) - 256

/-- Line 94:
`for ; i < len(flat)-1 && flat[i+1] == flat[i] && sameCount < (0x7f-1); i++ { sameCount++ }`.
Returns the values of `i` and `sameCount` when the loop is left.
The guard `i < len(flat)-1` over Go's `int` is `i + 1 < flat.length` over `Nat`. -/
def sameLoop (flat : List Int) : Nat → Nat → Nat → Option (Nat × Nat)
  | 0, _, _ => none
  | fuel + 1, i, sameCount =>
    if i + 1 < flat.length then
      match flat[i + 1]?, flat[i]? with
      | some a, some b =>
        if a = b ∧ sameCount < 0x7f - 1 then sameLoop flat fuel (i + 1) (sameCount + 1)
        else some (i, sameCount)
      | _, _ => none
    else some (i, sameCount)

/-- Line 106:
`for ; i < len(flat)-1 && flat[i+1] != flat[i] && diffCount < 128; i++ { diffs = append(diffs, byte(flat[i])) }`.
The loop body does not change `diffCount`.
Returns the values of `i` and `diffs` when the loop is left. -/
def diffLoop (flat : List Int) (diffCount : Nat) : Nat → Nat → List Nat → Option (Nat × List Nat)
  | 0, _, _ => none
  | fuel + 1, i, diffs =>
    if i + 1 < flat.length then
      match flat[i + 1]?, flat[i]? with
      | some a, some b =>
        if a ≠ b ∧ diffCount < 128 then diffLoop flat diffCount fuel (i + 1) (diffs ++ [toByte b])
        else some (i, diffs)
      | _, _ => none
    else some (i, diffs)

/-- Which branch of the loop body appended to `result`. -/
inductive Kind
  | repeatRun
  | literalRun
  | idle
  deriving DecidableEq, Repr

/-- What one iteration of the outer loop did: the cursor `i` when the body was
entered, the bytes it appended to `result`, and the cursor when the body was left
(before the loop's `i++`). -/
structure Iter where
  kind : Kind
  start : Nat
  out : List Nat
  cursor : Nat
  deriving DecidableEq, Repr

/-- Lines 91-114: the body of the outer loop, entered with cursor `i`. -/
def body (flat : List Int) (i : Nat) : Option Iter :=
  -- var sameCount, diffCount int
  match sameLoop flat (flat.length + 1) i 0 with
  | none => none
  | some (i1, sameCount) =>
    if sameCount > 0 then
      match flat[i1]? with
      | none => none
      | some x => some ⟨Kind.repeatRun, i, [toByte ((sameCount : Int) + 1), toByte x], i1⟩
    else
      match diffLoop flat 0 (flat.length + 1) i1 [] with
      | none => none
      | some (i2, diffs) =>
        if diffs.length > 0 then
          some ⟨Kind.literalRun, i, toByte (-1 * (diffs.length : Int)) :: diffs, i2 - 1⟩
        else some ⟨Kind.idle, i, [], i2⟩

/-- Line 89: `for i := 0; i < len(flat)-1; i++ { body }`, with `result` threaded
through the iterations. -/
def encodeLoop (flat : List Int) : Nat → Nat → List Nat → Option (List Nat)
  | 0, _, _ => none
  | fuel + 1, i, result =>
    if i + 1 < flat.length then
      match body flat i with
      | none => none
      | some it => encodeLoop flat fuel (it.cursor + 1) (result ++ it.out)
    else some result

/-- Lines 87-115: the encoded bytes of a flattened image. -/
def encode (flat : List Int) : Option (List Nat) :=
  encodeLoop flat (flat.length + 1) 0 []

/-- The outer loop again, returning the list of its iterations instead of the
concatenated bytes. -/
def runsLoop (flat : List Int) : Nat → Nat → Option (List Iter)
  | 0, _ => none
  | fuel + 1, i =>
    if i + 1 < flat.length then
      match body flat i with
      | none => none
      | some it => (runsLoop flat fuel (it.cursor + 1)).map (fun rest => it :: rest)
    else some []

/-- The iterations of the outer loop on a flattened image, in order. -/
def runs (flat : List Int) : Option (List Iter) :=
  runsLoop flat (flat.length + 1) 0

/-- Decoder of spec section 4.2, which the repository does not implement: read a
control byte `c` as a signed 8-bit value; if `c > 0` read one payload byte and
emit it `c` times; if `c < 0` read `-c` payload bytes and emit them in order;
`c = 0` or a record cut short by the end of the stream is a format error
(`none`); repeat until the stream is exhausted. -/
def decodeLoop : Nat → List Nat → Option (List Nat)
  | 0, _ => none
  | _ + 1, [] => some []
  | fuel + 1, c :: rest =>
    if toInt8 c > 0 then
      match rest with
      | [] => none
      | v :: rest1 => (decodeLoop fuel rest1).map (fun tl => List.replicate (toInt8 c).toNat v ++ tl)
    else if toInt8 c < 0 then
      if (-(toInt8 c)).toNat ≤ rest.length then
        (decodeLoop fuel (rest.drop (-(toInt8 c)).toNat)).map
          (fun tl => rest.take (-(toInt8 c)).toNat ++ tl)
      else none
    else none

/-- Decoding of a whole stream per spec section 4.2; every record takes at least
one byte, so the stream's length (plus one) is fuel enough. -/
def specDecode (stream : List Nat) : Option (List Nat) :=
  decodeLoop (stream.length + 1) stream

/-- The strictly alternating samples `1, 2, 1, 2, ...` of length `n`. -/
def alternating (n : Nat) : List Int :=
  (List.range n).map (fun k => if k % 2 = 0 then 1 else 2)

/-- The bytes appended by a list of iterations, in order. -/
def bytesOf : List Iter → List Nat
  | [] => []
  | it :: rest => it.out ++ bytesOf rest

/-- The value of the cursor `i` when the outer loop is left, given its value `i`
at the first of the listed iterations. -/
def exitCursor : Nat → List Iter → Nat
  | i, [] => i
  | _, it :: rest => exitCursor (it.cursor + 1) rest

/-- The length of the maximal block of equal samples at the end of `s`
(`0` for the empty sequence). -/
def trailingRun (s : List Int) : Nat :=
  match s.reverse with
  | [] => 0
  | x :: rest => 1 + (rest.takeWhile (fun y => y = x)).length

/-! ### Animation descriptors (`genLogo`, `genScreensaver`) -/

/-- Lines 136-139: `screenWidth`. -/
def screenWidth : Int := 256

/-- Lines 136-139: `screenHeight`. -/
def screenHeight : Int := 64

/-- One frame tuple `{x, y, duration, opacity, &image}` printed by `genLogo` or
`genScreensaver` (the image reference is the same in every frame). -/
structure Frame where
  x : Int
  y : Int
  duration : Int
  opacity : Int
  deriving DecidableEq, Repr

/-- A printed `VariantAnimation`: the frame count written on its first line and
the frame tuples that follow, in order. -/
structure Animation where
  count : Int
  frames : List Frame
  deriving DecidableEq, Repr

/-- Line 149: `for opacity := 0; opacity <= 100; opacity += 5 { print frame }`. -/
def fadeInLoop (x y : Int) : Nat → Int → List Frame → Option (List Frame)
  | 0, _, _ => none
  | fuel + 1, opacity, frames =>
    if opacity ≤ 100 then fadeInLoop x y fuel (opacity + 5) (frames ++ [⟨x, y, 25, opacity⟩])
    else some frames

/-- Line 159: `for opacity := 100; opacity >= 0; opacity -= 5 { print frame }`. -/
def fadeOutLoop (x y : Int) : Nat → Int → List Frame → Option (List Frame)
  | 0, _, _ => none
  | fuel + 1, opacity, frames =>
    if opacity ≥ 0 then fadeOutLoop x y fuel (opacity - 5) (frames ++ [⟨x, y, 25, opacity⟩])
    else some frames

/-- Lines 141-164: `genLogo`, returning the fade-in animation and the `_reversed`
one. Go's `/` on `int` truncates toward zero (`Int.tdiv`). -/
def genLogo (w h : Int) : Option (Animation × Animation) :=
  let x := Int.tdiv screenWidth 2 - Int.tdiv w 2
  let y := Int.tdiv screenHeight 2 - Int.tdiv h 2
  match fadeInLoop x y 22 0 [] with
  | none => none
  | some fadeIn =>
    match fadeOutLoop x y 22 100 [] with
    | none => none
    | some fadeOut => some (⟨21, fadeIn⟩, ⟨21, fadeOut⟩)

/-- Line 177: `for ; x+w < screenWidth-1; x++ { print frame }`; returns `x` and the
frames printed so far. -/
def rightLoop (w y : Int) : Nat → Int → List Frame → Option (Int × List Frame)
  | 0, _, _ => none
  | fuel + 1, x, frames =>
    if x + w < screenWidth - 1 then rightLoop w y fuel (x + 1) (frames ++ [⟨x, y, 75, 60⟩])
    else some (x, frames)

/-- Line 181: `for ; x >= 0; x-- { print frame }`. -/
def leftLoop (y : Int) : Nat → Int → List Frame → Option (Int × List Frame)
  | 0, _, _ => none
  | fuel + 1, x, frames =>
    if x ≥ 0 then leftLoop y fuel (x - 1) (frames ++ [⟨x, y, 75, 60⟩])
    else some (x, frames)

/-- Line 185: `for x = 0; x <= startX; x++ { print frame }`. -/
def midLoop (startX y : Int) : Nat → Int → List Frame → Option (Int × List Frame)
  | 0, _, _ => none
  | fuel + 1, x, frames =>
    if x ≤ startX then midLoop startX y fuel (x + 1) (frames ++ [⟨x, y, 75, 60⟩])
    else some (x, frames)

/-- Lines 166-190: `genScreensaver`. Each loop gets the number of iterations still
ahead of it, plus one, as fuel. -/
def genScreensaver (w h : Int) : Option Animation :=
  let startX := Int.tdiv screenWidth 2 - Int.tdiv w 2
  let x := startX
  let y := Int.tdiv screenHeight 2 - Int.tdiv h 2
  let numFrames := (screenWidth - (x + w)) + (screenWidth - w) + startX
  match rightLoop w y ((screenWidth - 1 - (x + w)).toNat + 1) x [] with
  | none => none
  | some (x1, frames1) =>
    match leftLoop y ((x1 + 1).toNat + 1) x1 frames1 with
    | none => none
    | some (_, frames2) =>
      match midLoop startX y ((startX + 1).toNat + 1) 0 frames2 with
      | none => none
      | some (_, frames3) => some ⟨numFrames, frames3⟩

/-! ### Reading the image (`parseWidthHeight` and the flatten loop) -/

/-- Go's `unicode.IsSpace`: the code points with Unicode's White_Space property. -/
def isSpace (c : Char) : Bool :=
  (9 ≤ c.toNat ∧ c.toNat ≤ 13) ∨ c.toNat = 0x20 ∨ c.toNat = 0x85 ∨ c.toNat = 0xA0 ∨
    c.toNat = 0x1680 ∨ (0x2000 ≤ c.toNat ∧ c.toNat ≤ 0x200A) ∨ c.toNat = 0x2028 ∨
    c.toNat = 0x2029 ∨ c.toNat = 0x202F ∨ c.toNat = 0x205F ∨ c.toNat = 0x3000

/-- The scan of `strings.Fields`: `cur` holds the field being read, reversed. -/
def fieldsAux : List Char → List Char → List (List Char)
  | cur, [] => if cur = [] then [] else [cur.reverse]
  | cur, c :: cs =>
    if isSpace c then
      if cur = [] then fieldsAux [] cs else cur.reverse :: fieldsAux [] cs
    else fieldsAux (c :: cur) cs

/-- Go's `strings.Fields`: the maximal runs of non-space characters, in order.
A Go string is taken as the sequence of its code points (valid UTF-8). -/
def fields (s : List Char) : List (List Char) := fieldsAux [] s

/-- Go's `strings.Split(s, "\n")`: the pieces between newlines, one more than
there are newlines. -/
def splitLines : List Char → List (List Char)
  | [] => [[]]
  | c :: cs =>
    if c = '\n' then [] :: splitLines cs
    else
      match splitLines cs with
      | [] => [[c]]
      | l :: ls => (c :: l) :: ls

/-- Go's `len(s)` of a string: its length in bytes (UTF-8). -/
def byteLen (s : List Char) : Nat := (s.map (fun c => c.utf8Size)).foldl (fun a b => a + b) 0

/-- The decimal digits of `strconv.Atoi`, accumulated left to right; `none` on a
character that is not an ASCII digit. -/
def parseDigits : List Char → Nat → Option Nat
  | [], acc => some acc
  | c :: cs, acc =>
    if 48 ≤ c.toNat ∧ c.toNat ≤ 57 then parseDigits cs (acc * 10 + (c.toNat - 48)) else none

/-- Go's `strconv.Atoi` on a 64-bit platform: an optional sign, at least one
decimal digit, and a value that fits `int`; `none` stands for a returned error. -/
def atoi (s : List Char) : Option Int :=
  match s with
  | [] => none
  | c :: ds =>
    if c = '-' then
      if ds = [] then none
      else
        match parseDigits ds 0 with
        | none => none
        | some n => if n ≤ 2 ^ 63 then some (-(n : Int)) else none
    else if c = '+' then
      if ds = [] then none
      else
        match parseDigits ds 0 with
        | none => none
        | some n => if n < 2 ^ 63 then some (n : Int) else none
    else
      match parseDigits (c :: ds) 0 with
      | none => none
      | some n => if n < 2 ^ 63 then some (n : Int) else none

/-- Lines 13-34: `parseWidthHeight`, returning width, height and the updated
`*lines`. `none` stands for `log.Fatal` or an index out of range. -/
def parseWidthHeight (lines : List (List Char)) : Option (Int × Int × List (List Char)) :=
  match lines[0]? with
  | none => none
  | some l0 =>
    if (fields l0).length = 1 then
      match lines[2]? with
      | none => none
      | some l2 =>
        match (fields l2)[0]? with
        | none => none
        | some t0 =>
          match atoi t0 with
          | none => none
          | some width =>
            match (fields l2)[1]? with
            | none => none
            | some t1 =>
              match atoi t1 with
              | none => none
              | some height =>
                if 4 ≤ lines.length then some (width, height, lines.drop 4) else none
    else some ((byteLen l0 : Int), (lines.length : Int), lines)

/-- Lines 78-84: the loop over the tokens of one row, appending to `flat`. -/
def flattenRow : List (List Char) → List Int → Option (List Int)
  | [], flat => some flat
  | v :: row, flat =>
    match atoi v with
    | none => none
    | some i => flattenRow row (flat ++ [i])

/-- Lines 69-85: the loop over the lines, skipping the empty ones. -/
def flattenLines : List (List Char) → List Int → Option (List Int)
  | [], flat => some flat
  | line :: rest, flat =>
    if (fields line).length = 0 then flattenLines rest flat
    else
      match flattenRow (fields line) flat with
      | none => none
      | some flat1 => flattenLines rest flat1

/-- Lines 63-85: width, height and the flattened image read from the text of the
input file. -/
def readImage (text : List Char) : Option (Int × Int × List Int) :=
  match parseWidthHeight (splitLines text) with
  | none => none
  | some (width, height, lines) =>
    match flattenLines lines [] with
    | none => none
    | some flat => some (width, height, flat)

/-! ## The inner loops -/

/-- The repeat scan returns: it advances `i` and `sameCount` by the same `k`, over
`k` samples equal to their successor, and stops at the end of the input, at a
sample that differs from its successor, or at `sameCount = 126`. -/
theorem sameLoop_spec (flat : List Int) :
    ∀ (fuel i c : Nat), i ≤ flat.length → flat.length + 1 ≤ fuel + i →
      ∃ k, sameLoop flat fuel i c = some (i + k, c + k) ∧
        (∀ j, j < k → i + j + 1 < flat.length ∧ flat[i + j + 1]? = flat[i + j]?) ∧
        (k = 0 ∨ c + k ≤ 126) ∧
        (¬ (i + k + 1 < flat.length) ∨ flat[i + k + 1]? ≠ flat[i + k]? ∨ 126 ≤ c + k) := by
  intro fuel
  induction fuel with
  | zero => intro i c hi hf; omega
  | succ fuel ih =>
    intro i c hi hf
    by_cases h : i + 1 < flat.length
    · have hlt : i < flat.length := by omega
      have h1 : flat[i + 1]? = some flat[i + 1] := List.getElem?_eq_getElem h
      have h0 : flat[i]? = some flat[i] := List.getElem?_eq_getElem hlt
      by_cases hc : flat[i + 1] = flat[i] ∧ c < 126
      · obtain ⟨k, hk, hall, hcap, hstop⟩ := ih (i + 1) (c + 1) (by omega) (by omega)
        refine ⟨k + 1, ?_, ?_, ?_, ?_⟩
        · simp only [sameLoop, h, h1, h0, if_true]
          rw [if_pos (by simpa using hc), hk]
          congr 2 <;> omega
        · intro j hj
          cases j with
          | zero => exact ⟨h, by simp [h1, h0, hc.1]⟩
          | succ j =>
            have := hall j (by omega)
            have e1 : i + (j + 1) + 1 = i + 1 + j + 1 := by omega
            have e2 : i + (j + 1) = i + 1 + j := by omega
            rw [e1, e2]; exact this
        · right; omega
        · have e1 : i + (k + 1) + 1 = i + 1 + k + 1 := by omega
          have e2 : i + (k + 1) = i + 1 + k := by omega
          have e3 : c + (k + 1) = c + 1 + k := by omega
          rw [e1, e2, e3]; exact hstop
      · refine ⟨0, ?_, ?_, ?_, ?_⟩
        · simp only [sameLoop, h, h1, h0, if_true]
          rw [if_neg (by simpa using hc)]
          rfl
        · intro j hj; omega
        · left; rfl
        · simp only [Nat.add_zero, h1, h0]
          by_cases he : flat[i + 1] = flat[i]
          · right; right
            have : ¬ c < 126 := fun hl => hc ⟨he, hl⟩
            omega
          · right; left; simpa using he
    · refine ⟨0, ?_, ?_, ?_, ?_⟩
      · simp [sameLoop, h]
      · intro j hj; omega
      · left; rfl
      · left; simpa using h

/-- The literal scan (entered with `diffCount = 0`) returns: it advances `i` by
`k`, appends the bytes of the `k` samples it passed, each different from its
successor, and stops only at the end of the input or at a sample equal to its
successor. -/
theorem diffLoop_spec (flat : List Int) :
    ∀ (fuel i : Nat) (diffs : List Nat), i ≤ flat.length → flat.length + 1 ≤ fuel + i →
      ∃ k, diffLoop flat 0 fuel i diffs
            = some (i + k, diffs ++ ((flat.drop i).take k).map toByte) ∧
        (∀ j, j < k → i + j + 1 < flat.length ∧ flat[i + j + 1]? ≠ flat[i + j]?) ∧
        (¬ (i + k + 1 < flat.length) ∨ flat[i + k + 1]? = flat[i + k]?) := by
  intro fuel
  induction fuel with
  | zero => intro i diffs hi hf; omega
  | succ fuel ih =>
    intro i diffs hi hf
    by_cases h : i + 1 < flat.length
    · have hlt : i < flat.length := by omega
      have h1 : flat[i + 1]? = some flat[i + 1] := List.getElem?_eq_getElem h
      have h0 : flat[i]? = some flat[i] := List.getElem?_eq_getElem hlt
      by_cases hc : flat[i + 1] = flat[i]
      · refine ⟨0, ?_, ?_, ?_⟩
        · simp [diffLoop, h, h1, h0, hc]
        · intro j hj; omega
        · right; simp [h1, h0, hc]
      · obtain ⟨k, hk, hall, hstop⟩ :=
          ih (i + 1) (diffs ++ [toByte (flat[i])]) (by omega) (by omega)
        refine ⟨k + 1, ?_, ?_, ?_⟩
        · simp only [diffLoop, h, h1, h0, if_true]
          rw [if_pos (by simpa using hc), hk]
          have hd : flat.drop i = flat[i] :: flat.drop (i + 1) :=
            List.drop_eq_getElem_cons hlt
          rw [hd, List.take_succ_cons, List.map_cons, List.append_assoc, List.singleton_append,
            Nat.add_assoc, Nat.add_comm 1 k]
        · intro j hj
          cases j with
          | zero => exact ⟨h, by simp [h1, h0, hc]⟩
          | succ j =>
            have := hall j (by omega)
            have e1 : i + (j + 1) + 1 = i + 1 + j + 1 := by omega
            have e2 : i + (j + 1) = i + 1 + j := by omega
            rw [e1, e2]; exact this
        · have e1 : i + (k + 1) + 1 = i + 1 + k + 1 := by omega
          have e2 : i + (k + 1) = i + 1 + k := by omega
          rw [e1, e2]; exact hstop
    · refine ⟨0, ?_, ?_, ?_⟩
      · simp [diffLoop, h]
      · intro j hj; omega
      · left; simpa using h


/-- Samples passed by the repeat scan all equal the first one. -/
theorem same_chain (flat : List Int) (i k : Nat)
    (hall : ∀ j, j < k → i + j + 1 < flat.length ∧ flat[i + j + 1]? = flat[i + j]?) :
    ∀ j, j ≤ k → flat[i + j]? = flat[i]? := by
  intro j
  induction j with
  | zero => intro _; rfl
  | succ j ih =>
    intro hj
    have := (hall j (by omega)).2
    rw [← ih (by omega), ← this]
    rfl

/-- The loop body, entered with `i < len(flat)-1`, appends either a repeat record
for `k + 1` equal samples (`1 ≤ k ≤ 126`) or a literal record of `k ≥ 1`
samples that each differ from their successor. -/
theorem body_spec (flat : List Int) (i : Nat) (h : i + 1 < flat.length) :
    (∃ k x, 1 ≤ k ∧ k ≤ 126 ∧ i + k < flat.length ∧
        body flat i
          = some ⟨Kind.repeatRun, i, [toByte ((k : Int) + 1), toByte x], i + k⟩ ∧
        (∀ j, j ≤ k → flat[i + j]? = some x) ∧
        (¬ (i + k + 1 < flat.length) ∨ flat[i + k + 1]? ≠ some x ∨ k = 126)) ∨
    (∃ k, 1 ≤ k ∧ i + k < flat.length ∧
        body flat i
          = some ⟨Kind.literalRun, i,
              toByte (-1 * (k : Int)) :: ((flat.drop i).take k).map toByte, i + k - 1⟩ ∧
        (∀ j, j < k → flat[i + j + 1]? ≠ flat[i + j]?) ∧
        (¬ (i + k + 1 < flat.length) ∨ flat[i + k + 1]? = flat[i + k]?)) := by
  have hlt : i < flat.length := by omega
  obtain ⟨k, hk, hall, hcap, hstop⟩ := sameLoop_spec flat (flat.length + 1) i 0 (by omega) (by omega)
  rcases Nat.eq_zero_or_pos k with hk0 | hkpos
  · subst hk0
    right
    simp only [Nat.add_zero] at hk hstop
    have hne : flat[i + 1]? ≠ flat[i]? := by
      rcases hstop with h1 | h1 | h1
      · exact absurd h h1
      · exact h1
      · omega
    obtain ⟨k2, hk2, hall2, hstop2⟩ :=
      diffLoop_spec flat (flat.length + 1) i [] (by omega) (by omega)
    have hk2pos : 1 ≤ k2 := by
      rcases Nat.eq_zero_or_pos k2 with h0 | h0
      · subst h0
        rcases hstop2 with h1 | h1
        · exact absurd h h1
        · exact absurd h1 hne
      · exact h0
    have hlen : i + k2 < flat.length := by
      have := (hall2 (k2 - 1) (by omega)).1
      omega
    refine ⟨k2, hk2pos, hlen, ?_, fun j hj => (hall2 j hj).2, hstop2⟩
    have hl : (((flat.drop i).take k2).map toByte).length = k2 := by
      simp; omega
    simp only [body, hk, List.nil_append] at hk2 ⊢
    simp only [hk2, hl]
    simp; omega
  · left
    have hlen : i + k < flat.length := by
      have := (hall (k - 1) (by omega)).1
      omega
    have hch := same_chain flat i k hall
    have h0 : flat[i]? = some flat[i] := List.getElem?_eq_getElem hlt
    refine ⟨k, flat[i], hkpos, by omega, hlen, ?_, fun j hj => (hch j hj).trans h0, ?_⟩
    · have hx : flat[i + k]? = some flat[i] := (hch k (Nat.le_refl k)).trans h0
      simp only [body, hk, Nat.zero_add]
      simp [hx]; omega
    · rcases hstop with h1 | h1 | h1
      · left; exact h1
      · right; left
        rw [← h0, ← hch k (Nat.le_refl k)]; exact h1
      · right; right; omega

/-! ## The loop body and the outer loop -/

/-- The record the body appends at a block of `k + 1` equal samples. -/
theorem body_repeat (flat : List Int) (i k : Nat) (x : Int) (h1 : 1 ≤ k) (hk : k ≤ 126)
    (hall : ∀ j, j ≤ k → flat[i + j]? = some x)
    (hstop : ¬ (i + k + 1 < flat.length) ∨ flat[i + k + 1]? ≠ some x ∨ k = 126) :
    body flat i = some ⟨Kind.repeatRun, i, [toByte ((k : Int) + 1), toByte x], i + k⟩ := by
  have hx0 : flat[i]? = some x := hall 0 (Nat.zero_le k)
  have hx1 : flat[i + 1]? = some x := hall 1 h1
  have h : i + 1 < flat.length := (List.getElem?_eq_some.mp hx1).1
  rcases body_spec flat i h with ⟨k2, x2, hk1, hk126, hlen, hb, hall2, hstop2⟩ | ⟨k2, _, _, _, hall2, _⟩
  · have hxx : x2 = x := by
      have := hall2 0 (Nat.zero_le k2)
      rw [Nat.add_zero, hx0] at this
      exact (Option.some.inj this).symm
    subst hxx
    have hkk : k2 = k := by
      rcases Nat.lt_trichotomy k2 k with hlt | heq | hgt
      · exfalso
        have hn := hall (k2 + 1) hlt
        have hb2 : i + k2 + 1 < flat.length := (List.getElem?_eq_some.mp hn).1
        rcases hstop2 with h3 | h3 | h3
        · exact h3 hb2
        · exact h3 hn
        · omega
      · exact heq
      · exfalso
        have hn := hall2 (k + 1) hgt
        have hb2 : i + k + 1 < flat.length := (List.getElem?_eq_some.mp hn).1
        rcases hstop with h3 | h3 | h3
        · exact h3 hb2
        · exact h3 hn
        · omega
    subst hkk
    exact hb
  · exfalso
    have : flat[i + 1]? ≠ flat[i]? := hall2 0 (by omega)
    rw [hx0, hx1] at this
    exact this rfl

/-- The record the body appends at `k` samples that each differ from their successor. -/
theorem body_literal (flat : List Int) (i k : Nat) (h1 : 1 ≤ k) (hlen : i + k < flat.length)
    (hall : ∀ j, j < k → flat[i + j + 1]? ≠ flat[i + j]?)
    (hstop : ¬ (i + k + 1 < flat.length) ∨ flat[i + k + 1]? = flat[i + k]?) :
    body flat i
      = some ⟨Kind.literalRun, i,
          toByte (-1 * (k : Int)) :: ((flat.drop i).take k).map toByte, i + k - 1⟩ := by
  have h : i + 1 < flat.length := by omega
  rcases body_spec flat i h with ⟨k2, x2, hk1, _, _, _, hall2, _⟩ | ⟨k2, hk1, hlen2, hb, hall2, hstop2⟩
  · exfalso
    have e0 := hall2 0 (Nat.zero_le k2)
    have e1 := hall2 1 hk1
    have : flat[i + 1]? ≠ flat[i]? := hall 0 (by omega)
    rw [Nat.add_zero] at e0
    rw [e0, e1] at this
    exact this rfl
  · have hkk : k2 = k := by
      rcases Nat.lt_trichotomy k2 k with hlt | heq | hgt
      · exfalso
        rcases hstop2 with h3 | h3
        · omega
        · exact hall k2 hlt h3
      · exact heq
      · exfalso
        rcases hstop with h3 | h3
        · omega
        · exact hall2 k hgt h3
    subst hkk
    exact hb

/-- Every iteration entered with `i < len(flat)-1` returns, leaves the cursor
within `[i, len(flat)-1]`, and appends a record. -/
theorem body_bounds (flat : List Int) (i : Nat) (h : i + 1 < flat.length) :
    ∃ it, body flat i = some it ∧ it.start = i ∧ i ≤ it.cursor ∧
      it.cursor + 1 ≤ flat.length ∧ it.kind ≠ Kind.idle ∧ it.out ≠ [] := by
  rcases body_spec flat i h with ⟨k, x, hk1, _, hlen, hb, _, _⟩ | ⟨k, hk1, hlen, hb, _, _⟩
  · exact ⟨_, hb, rfl, by simp, by simp; omega, by simp, by simp⟩
  · exact ⟨_, hb, rfl, by simp; omega, by simp; omega, by simp, by simp⟩

/-- The threaded `result` is the bytes of the iterations, appended in order. -/
theorem encodeLoop_eq_runsLoop (flat : List Int) :
    ∀ (fuel i : Nat) (result : List Nat),
      encodeLoop flat fuel i result
        = (runsLoop flat fuel i).map (fun tr => result ++ bytesOf tr) := by
  intro fuel
  induction fuel with
  | zero => intro i result; rfl
  | succ fuel ih =>
    intro i result
    by_cases h : i + 1 < flat.length
    · cases hb : body flat i with
      | none => simp [encodeLoop, runsLoop, h, hb]
      | some it =>
        simp only [encodeLoop, runsLoop, h, hb, if_true, ih]
        cases runsLoop flat fuel (it.cursor + 1) with
        | none => rfl
        | some tr => simp [bytesOf]
    · simp [encodeLoop, runsLoop, h, bytesOf]

/-- The encoded bytes are the bytes of the iterations of the outer loop. -/
theorem encode_eq_runs (flat : List Int) : encode flat = (runs flat).map bytesOf := by
  simp [encode, runs, encodeLoop_eq_runsLoop]

theorem runsLoop_step (flat : List Int) (fuel i : Nat) (it : Iter) (h : i + 1 < flat.length)
    (hb : body flat i = some it) :
    runsLoop flat (fuel + 1) i = (runsLoop flat fuel (it.cursor + 1)).map (fun rest => it :: rest) := by
  simp [runsLoop, h, hb]

theorem runsLoop_done (flat : List Int) (fuel i : Nat) (h : ¬ (i + 1 < flat.length)) :
    runsLoop flat (fuel + 1) i = some [] := by
  simp [runsLoop, h]

/-- The outer loop returns when given `len(flat) + 1 - i` units of fuel; every
iteration is a value of `body` at a cursor below `len(flat)-1`, and each one
starts one past the cursor the previous one left. -/
theorem runsLoop_spec (flat : List Int) :
    ∀ (fuel i : Nat), i ≤ flat.length → flat.length + 1 ≤ fuel + i →
      ∃ tr, runsLoop flat fuel i = some tr ∧
        (∀ it ∈ tr, i ≤ it.start ∧ it.start + 1 < flat.length ∧ body flat it.start = some it) ∧
        (∀ it ∈ tr.head?, it.start = i) ∧
        List.Chain' (fun a b => b.start = a.cursor + 1) tr := by
  intro fuel
  induction fuel with
  | zero => intro i hi hf; omega
  | succ fuel ih =>
    intro i hi hf
    by_cases h : i + 1 < flat.length
    · obtain ⟨it, hb, hs, hc, hl, _, _⟩ := body_bounds flat i h
      obtain ⟨tr, htr, hmem, hhead, hchain⟩ := ih (it.cursor + 1) hl (by omega)
      refine ⟨it :: tr, ?_, ?_, ?_, ?_⟩
      · rw [runsLoop_step flat fuel i it h hb, htr]; rfl
      · intro a ha
        rcases List.mem_cons.mp ha with ha | ha
        · subst ha
          exact ⟨by omega, by omega, by rw [hs]; exact hb⟩
        · obtain ⟨h1, h2, h3⟩ := hmem a ha
          exact ⟨by omega, h2, h3⟩
      · intro a ha
        simp at ha
        subst ha; exact hs
      · exact List.chain'_cons'.mpr ⟨hhead, hchain⟩
    · exact ⟨[], runsLoop_done flat fuel i h, by simp, by simp, List.chain'_nil⟩

theorem runsLoop_cons (flat : List Int) (fuel i : Nat) (it : Iter) (tr : List Iter)
    (h : i + 1 < flat.length) (hb : body flat i = some it)
    (hrest : runsLoop flat fuel (it.cursor + 1) = some tr) :
    runsLoop flat (fuel + 1) i = some (it :: tr) := by
  rw [runsLoop_step flat fuel i it h hb, hrest]; rfl

/-- The outer loop returns on every input, with the iterations chained as in `runsLoop_spec`. -/
theorem runs_spec (flat : List Int) :
    ∃ tr, runs flat = some tr ∧
      (∀ it ∈ tr, it.start + 1 < flat.length ∧ body flat it.start = some it) ∧
      (∀ it ∈ tr.head?, it.start = 0) ∧
      List.Chain' (fun a b => b.start = a.cursor + 1) tr := by
  obtain ⟨tr, h1, h2, h3, h4⟩ :=
    runsLoop_spec flat (flat.length + 1) 0 (Nat.zero_le _) (by omega)
  exact ⟨tr, h1, fun it hit => (h2 it hit).2, h3, h4⟩

/-! ## Bytes -/

theorem toByte_of_range (x : Int) (h0 : 0 ≤ x) (h255 : x ≤ 255) : toByte x = x.toNat := by
  unfold toByte
  rw [Int.emod_eq_of_lt h0 (by omega)]

theorem toByte_cast_of_range (x : Int) (h0 : 0 ≤ x) (h255 : x ≤ 255) :
    ((toByte x : Nat) : Int) = x := by
  rw [toByte_of_range x h0 h255]
  exact Int.toNat_of_nonneg h0

theorem toByte_natCast (n : Nat) (h : n ≤ 255) : toByte (n : Int) = n := by
  rw [toByte_of_range _ (by omega) (by omega)]
  exact Int.toNat_natCast n

theorem toByte_le (x : Int) : toByte x ≤ 255 := by
  unfold toByte
  have h1 := Int.emod_nonneg x (show (256 : Int) ≠ 0 by decide)
  have h2 := Int.emod_lt_of_pos x (show (0 : Int) < 256 by decide)
  omega

theorem toByte_neg (k : Nat) (h1 : 1 ≤ k) (h : k ≤ 256) : toByte (-1 * (k : Int)) = 256 - k := by
  unfold toByte
  omega

/-- Samples in `0..255` are their own bytes. -/
theorem map_toByte_cast (l : List Int) (h : ∀ x ∈ l, 0 ≤ x ∧ x ≤ 255) :
    (l.map toByte).map Int.ofNat = l := by
  induction l with
  | nil => rfl
  | cons a l ih =>
    have ha := h a (List.mem_cons_self a l)
    simp only [List.map_cons]
    rw [ih (fun x hx => h x (List.mem_cons_of_mem a hx))]
    congr 1
    exact toByte_cast_of_range a ha.1 ha.2

/-- Adjacent samples of a list given as a chain of inequalities, by index. -/
theorem chain_ne_index (s : List Int) (h : List.Chain' (fun a b => a ≠ b) s) :
    ∀ j, j + 1 < s.length → s[j + 1]? ≠ s[j]? := by
  intro j hj
  have hlt : j < s.length := by omega
  have := List.chain'_iff_get.mp h j (by omega)
  rw [List.getElem?_eq_getElem hj, List.getElem?_eq_getElem hlt]
  intro he
  exact this (Option.some.inj he).symm

/-! ## The claims on the encoder -/

/-- Claim C1 fails at the 130 alternating samples `1, 2, 1, 2, ...`: the literal
scan is not capped (line 106 never increments `diffCount`), so the encoder emits
one literal record of 129 payload bytes whose control byte `byte(-129)` is `127`;
a decoder per spec section 4.2 reads it as a repeat count and produces 255 ones,
whose first 129 elements are not the first 129 samples. -/
theorem roundtrip_breaks_at_130 :
    encode (alternating 130) = some (127 :: (alternating 129).map toByte) ∧
    specDecode (127 :: (alternating 129).map toByte) = some (List.replicate 255 1) ∧
    ((List.replicate 255 1).take 129).map Int.ofNat ≠ (alternating 130).take 129 := by
  decide!

/-- Claim C2 fails at the 200 alternating samples `1, 2, 1, 2, ...`: the encoder
performs a single iteration, a literal record carrying 199 payload bytes, whose
control byte `byte(-199)` is `57`, a positive signed 8-bit value. -/
theorem literal_record_of_199 :
    runs (alternating 200)
      = some [⟨Kind.literalRun, 0, 57 :: (alternating 199).map toByte, 198⟩] ∧
    ((alternating 199).map toByte).length = 199 ∧
    toInt8 57 = 57 := by
  decide!

/-- Claim C3 fails at the 257 alternating samples `1, 2, 1, 2, ...`: the encoder
performs a single iteration, a literal record of 256 payload bytes, and its
control byte `byte(-256)` is `0`. -/
theorem control_byte_zero :
    runs (alternating 257)
      = some [⟨Kind.literalRun, 0, 0 :: (alternating 256).map toByte, 255⟩] ∧
    encode (alternating 257) = some (0 :: (alternating 256).map toByte) := by
  decide!

/-- Claim C4 (repeat-run cap boundary): for every sample value `v` in `0..255`,
the encoder run on 200 copies of `v` performs exactly two iterations, both repeat
records: the first appends `[127, v]` for samples `0..126`, the second `[73, v]`
for the remaining 73 samples `127..199`; the encoded bytes are `[127, v, 73, v]`. -/
theorem encode_replicate_200 (v : Int) (h0 : 0 ≤ v) (h255 : v ≤ 255) :
    runs (List.replicate 200 v)
      = some [⟨Kind.repeatRun, 0, [127, v.toNat], 126⟩, ⟨Kind.repeatRun, 127, [73, v.toNat], 199⟩] ∧
    encode (List.replicate 200 v) = some [127, v.toNat, 73, v.toNat] := by
  have hget : ∀ j, j < 200 → (List.replicate 200 v)[j]? = some v := by
    intro j hj; rw [List.getElem?_replicate, if_pos hj]
  have hlen : (List.replicate 200 v).length = 200 := List.length_replicate 200 v
  have b1 := body_repeat (List.replicate 200 v) 0 126 v (by omega) (by omega)
    (fun j hj => hget _ (by omega)) (Or.inr (Or.inr rfl))
  have b2 := body_repeat (List.replicate 200 v) 127 72 v (by omega) (by omega)
    (fun j hj => hget _ (by omega)) (Or.inl (by rw [hlen]; omega))
  rw [toByte_of_range v h0 h255] at b1 b2
  have r3 : runsLoop (List.replicate 200 v) 199 200 = some [] :=
    runsLoop_done (List.replicate 200 v) 198 200 (by rw [hlen]; omega)
  have r2 := runsLoop_cons (List.replicate 200 v) 199 127 _ [] (by rw [hlen]; omega) b2 r3
  have r1 := runsLoop_cons (List.replicate 200 v) 200 0 _ _ (by rw [hlen]; omega) b1 r2
  have hr : runs (List.replicate 200 v)
      = some [⟨Kind.repeatRun, 0, [127, v.toNat], 126⟩, ⟨Kind.repeatRun, 127, [73, v.toNat], 199⟩] := by
    unfold runs
    rw [hlen]
    exact r1
  refine ⟨hr, ?_⟩
  rw [encode_eq_runs, hr]
  rfl

/-- Claim C4 at `v = 7`. -/
theorem encode_replicate_200_witness :
    runs (List.replicate 200 7)
      = some [⟨Kind.repeatRun, 0, [127, 7], 126⟩, ⟨Kind.repeatRun, 127, [73, 7], 199⟩] ∧
    encode (List.replicate 200 7) = some [127, 7, 73, 7] :=
  encode_replicate_200 7 (by decide) (by decide)

/-- Claim C5 (repeat record layout): for every input with samples in `0..255` the
encoder returns, and every repeat record it appended is a control byte `c` with
`2 ≤ c ≤ 127` followed by one payload byte `v`; the record covers the `c`
consecutive samples from the cursor at entry up to the cursor at exit
(`cursor + 1 = start + c`), all inside the input, and each of them equals `v`. -/
theorem repeat_record_layout (flat : List Int) (hrange : ∀ x ∈ flat, 0 ≤ x ∧ x ≤ 255) :
    ∃ tr, runs flat = some tr ∧
      ∀ it ∈ tr, it.kind = Kind.repeatRun →
        ∃ c v : Nat, it.out = [c, v] ∧ 2 ≤ c ∧ c ≤ 127 ∧
          it.cursor + 1 = it.start + c ∧ it.start + c ≤ flat.length ∧
          ∀ j, it.start ≤ j → j < it.start + c → flat[j]? = some (v : Int) := by
  obtain ⟨tr, hr, hmem, _, _⟩ := runs_spec flat
  refine ⟨tr, hr, ?_⟩
  intro it hit hkind
  obtain ⟨hlt, hb⟩ := hmem it hit
  rcases body_spec flat it.start hlt with
    ⟨k, x, hk1, hk126, hlen, hb2, hall, _⟩ | ⟨k, _, _, hb2, _, _⟩
  · rw [hb] at hb2
    have hit2 := Option.some.inj hb2
    have hx0 : flat[it.start]? = some x := hall 0 (Nat.zero_le k)
    have hxmem : x ∈ flat := List.mem_iff_getElem?.mpr ⟨_, hx0⟩
    have hxr := hrange x hxmem
    have hc : toByte ((k : Int) + 1) = k + 1 := by unfold toByte; omega
    refine ⟨k + 1, toByte x, ?_, by omega, by omega, ?_, by omega, ?_⟩
    · rw [hit2, hc]
    · rw [hit2]; simp only; omega
    · intro j hj1 hj2
      rw [toByte_cast_of_range x hxr.1 hxr.2]
      have := hall (j - it.start) (by omega)
      have e : it.start + (j - it.start) = j := by omega
      rw [e] at this
      exact this
  · rw [hb] at hb2
    have hit2 := Option.some.inj hb2
    rw [hit2] at hkind
    simp at hkind

/-- Claim C5 at `[7, 7, 7, 3, 4, 4]`. -/
theorem repeat_record_layout_witness :
    ∃ tr, runs [7, 7, 7, 3, 4, 4] = some tr ∧
      ∀ it ∈ tr, it.kind = Kind.repeatRun →
        ∃ c v : Nat, it.out = [c, v] ∧ 2 ≤ c ∧ c ≤ 127 ∧
          it.cursor + 1 = it.start + c ∧ it.start + c ≤ [7, 7, 7, 3, 4, 4].length ∧
          ∀ j, it.start ≤ j → j < it.start + c → ([7, 7, 7, 3, 4, 4] : List Int)[j]? = some (v : Int) :=
  repeat_record_layout [7, 7, 7, 3, 4, 4] (by decide)

/-- Claim C6 (degenerate image): for every input of length 0 or 1 the outer loop
performs no iteration and the encoded output is the empty byte sequence. -/
theorem encode_degenerate (flat : List Int) (h : flat.length ≤ 1) :
    runs flat = some [] ∧ encode flat = some [] := by
  have hr : runs flat = some [] := runsLoop_done flat flat.length 0 (by omega)
  refine ⟨hr, ?_⟩
  rw [encode_eq_runs, hr]
  rfl

/-- Claim C6 at the one-sample image `[5]`. -/
theorem encode_degenerate_witness :
    runs [5] = some [] ∧ encode [5] = some [] :=
  encode_degenerate [5] (by decide)

/-- Claim C7 (all-identical image): for every `v` in `0..255` and `2 ≤ n ≤ 127`,
`n` copies of `v` encode to exactly the two bytes `[n, v]`, and decoding them per
spec section 4.2 gives back all `n` samples, the last one included. -/
theorem encode_all_identical (v : Int) (n : Nat) (h0 : 0 ≤ v) (h255 : v ≤ 255)
    (h2 : 2 ≤ n) (h127 : n ≤ 127) :
    encode (List.replicate n v) = some [n, v.toNat] ∧
    specDecode [n, v.toNat] = some (List.replicate n v.toNat) ∧
    (List.replicate n v.toNat).map Int.ofNat = List.replicate n v := by
  have hget : ∀ j, j < n → (List.replicate n v)[j]? = some v := by
    intro j hj; rw [List.getElem?_replicate, if_pos hj]
  have hlen : (List.replicate n v).length = n := List.length_replicate n v
  have b1 := body_repeat (List.replicate n v) 0 (n - 1) v (by omega) (by omega)
    (fun j hj => hget _ (by omega)) (Or.inl (by rw [hlen]; omega))
  have hc : toByte (((n - 1 : Nat) : Int) + 1) = n := by unfold toByte; omega
  rw [toByte_of_range v h0 h255, hc] at b1
  have r2 : runsLoop (List.replicate n v) (n - 1 + 1) (0 + (n - 1) + 1) = some [] :=
    runsLoop_done (List.replicate n v) (n - 1) _ (by rw [hlen]; omega)
  have r1 := runsLoop_cons (List.replicate n v) (n - 1 + 1) 0 _ [] (by rw [hlen]; omega) b1 r2
  have hr : runs (List.replicate n v)
      = some [⟨Kind.repeatRun, 0, [n, v.toNat], 0 + (n - 1)⟩] := by
    unfold runs
    rw [hlen]
    have e : n + 1 = n - 1 + 1 + 1 := by omega
    rw [e]
    exact r1
  refine ⟨?_, ?_, ?_⟩
  · rw [encode_eq_runs, hr]
    simp [bytesOf]
  · have ht : toInt8 n = (n : Int) := by unfold toInt8; rw [if_pos (by omega)]
    have hpos : (n : Int) > 0 := by omega
    simp [specDecode, decodeLoop, ht, hpos]
  · rw [List.map_replicate]
    congr 1
    exact Int.toNat_of_nonneg h0

/-- Claim C7 at `[7, 7, 7, 7, 7]`: encoded as `[5, 7]`, decoded in full. -/
theorem encode_all_identical_witness :
    encode (List.replicate 5 7) = some [5, 7] ∧
    specDecode [5, 7] = some (List.replicate 5 7) ∧
    (List.replicate 5 7).map Int.ofNat = List.replicate 5 7 :=
  encode_all_identical 7 5 (by decide) (by decide) (by decide) (by decide)

/-- Claim C8 (alternating pattern): for every `s` of length `n`, `2 ≤ n ≤ 129`,
with samples in `0..255` and adjacent samples different, the encoder performs one
iteration, a literal record: the control byte `257 - n`, which read as a signed
8-bit value is `-(n-1)`, followed by `s[0], ..., s[n-2]`; decoding it per spec
section 4.2 gives back exactly these first `n-1` samples. -/
theorem encode_alternating_run (s : List Int) (h2 : 2 ≤ s.length) (h129 : s.length ≤ 129)
    (hrange : ∀ x ∈ s, 0 ≤ x ∧ x ≤ 255) (hadj : List.Chain' (fun a b => a ≠ b) s) :
    runs s = some [⟨Kind.literalRun, 0,
        (257 - s.length) :: (s.take (s.length - 1)).map toByte, s.length - 2⟩] ∧
    encode s = some ((257 - s.length) :: (s.take (s.length - 1)).map toByte) ∧
    toInt8 (257 - s.length) = -((s.length : Int) - 1) ∧
    ((s.take (s.length - 1)).map toByte).map Int.ofNat = s.take (s.length - 1) ∧
    specDecode ((257 - s.length) :: (s.take (s.length - 1)).map toByte)
      = some ((s.take (s.length - 1)).map toByte) := by
  have hne := chain_ne_index s hadj
  have b1 := body_literal s 0 (s.length - 1) (by omega) (by omega)
    (fun j hj => by rw [Nat.zero_add]; exact hne j (by omega)) (Or.inl (by omega))
  have hc : toByte (-1 * ((s.length - 1 : Nat) : Int)) = 257 - s.length := by
    rw [toByte_neg _ (by omega) (by omega)]; omega
  rw [hc, List.drop_zero] at b1
  have r2 : runsLoop s (s.length - 1 + 1) (0 + (s.length - 1) - 1 + 1) = some [] :=
    runsLoop_done s (s.length - 1) _ (by omega)
  have r1 := runsLoop_cons s (s.length - 1 + 1) 0 _ [] (by omega) b1 r2
  have e1 : 0 + (s.length - 1) - 1 = s.length - 2 := by omega
  rw [e1] at r1
  have hr : runs s = some [⟨Kind.literalRun, 0,
        (257 - s.length) :: (s.take (s.length - 1)).map toByte, s.length - 2⟩] := by
    unfold runs
    have e : s.length + 1 = s.length - 1 + 1 + 1 := by omega
    rw [e]
    exact r1
  refine ⟨hr, ?_, ?_, ?_, ?_⟩
  · rw [encode_eq_runs, hr]
    simp [bytesOf]
  · unfold toInt8
    rw [if_neg (by omega)]
    omega
  · exact map_toByte_cast _ (fun x hx => hrange x (List.mem_of_mem_take hx))
  · have ht : toInt8 (257 - s.length) = -((s.length : Int) - 1) := by
      unfold toInt8
      rw [if_neg (by omega)]
      omega
    have hn : (-(toInt8 (257 - s.length))).toNat = s.length - 1 := by rw [ht]; omega
    have hl : ((s.take (s.length - 1)).map toByte).length = s.length - 1 := by
      simp
    unfold specDecode
    rw [List.length_cons, hl]
    have hneg : ¬ toInt8 (257 - s.length) > 0 := by rw [ht]; omega
    have hlt : toInt8 (257 - s.length) < 0 := by rw [ht]; omega
    simp only [decodeLoop, if_neg hneg, if_pos hlt, hn]
    rw [if_pos (by rw [hl]), List.drop_of_length_le (by rw [hl]),
      List.take_of_length_le (by rw [hl])]
    have e : s.length - 1 = s.length - 2 + 1 := by omega
    rw [e]
    simp [decodeLoop]

/-- Claim C8 at `[1, 2, 1, 2, 1, 2]`: control byte `251`, that is `-5`, then `1, 2, 1, 2, 1`. -/
theorem encode_alternating_run_witness :
    runs [1, 2, 1, 2, 1, 2] = some [⟨Kind.literalRun, 0, [251, 1, 2, 1, 2, 1], 4⟩] ∧
    encode [1, 2, 1, 2, 1, 2] = some [251, 1, 2, 1, 2, 1] ∧
    toInt8 251 = -5 ∧
    ([1, 2, 1, 2, 1] : List Nat).map Int.ofNat = ([1, 2, 1, 2, 1] : List Int) ∧
    specDecode [251, 1, 2, 1, 2, 1] = some [1, 2, 1, 2, 1] :=
  encode_alternating_run [1, 2, 1, 2, 1, 2] (by decide) (by decide) (by decide) (by simp)

/-- Claim C9 (totality): on every input the encoding loop returns a byte sequence
(no index out of range, no fuel exhausted), namely the bytes of its iterations in
order; every iteration is entered with `i < len(flat)-1` and leaves the cursor
between its entry value and `len(flat)-1`; and each iteration starts where the
previous one left the cursor plus one, strictly after the previous start. -/
theorem encode_total (flat : List Int) :
    ∃ out tr, encode flat = some out ∧ runs flat = some tr ∧ out = bytesOf tr ∧
      (∀ it ∈ tr, it.start + 1 < flat.length ∧ it.start ≤ it.cursor ∧
        it.cursor + 1 ≤ flat.length) ∧
      List.Chain' (fun a b => b.start = a.cursor + 1 ∧ a.start < b.start) tr := by
  obtain ⟨tr, hr, hmem, _, hchain⟩ := runs_spec flat
  have hb : ∀ it ∈ tr, it.start + 1 < flat.length ∧ it.start ≤ it.cursor ∧
      it.cursor + 1 ≤ flat.length := by
    intro it hit
    obtain ⟨hlt, hbody⟩ := hmem it hit
    obtain ⟨it2, hb2, _, hc, hl, _, _⟩ := body_bounds flat it.start hlt
    rw [hbody] at hb2
    have e := Option.some.inj hb2
    subst e
    exact ⟨hlt, hc, hl⟩
  refine ⟨bytesOf tr, tr, ?_, hr, rfl, hb, ?_⟩
  · rw [encode_eq_runs, hr]; rfl
  · refine (List.Chain'.iff_mem.mp hchain).imp ?_
    intro a b ⟨ha, _, hab⟩
    have := (hb a ha).2.1
    exact ⟨hab, by omega⟩

/-- Claim C10 fails at `[7, 7, 3]`: the encoder performs one iteration, the repeat
record `[2, 7]` that leaves the cursor at index 1, and the loop bound
`i < len(flat)-1` stops it there; the decoded bytes are `[7, 7]`, one sample
short, and the last sample `3` is in no record. -/
theorem last_sample_dropped :
    runs [7, 7, 3] = some [⟨Kind.repeatRun, 0, [2, 7], 1⟩] ∧
    encode [7, 7, 3] = some [2, 7] ∧
    specDecode [2, 7] = some [7, 7] := by
  decide

/-! ## The trace of the outer loop: unreachable idle case, literal at the end, size -/

/-- The bytes of a trace, first iteration first. -/
theorem bytesOf_cons (it : Iter) (tr : List Iter) : bytesOf (it :: tr) = it.out ++ bytesOf tr := rfl

/-- Claim C13 (the case where neither branch emits is unreachable): for every input of
length at least 2, the loop body entered with `i < len(flat)-1` returns and
appends either a repeat record (two bytes) or a literal record (control byte and
at least one payload byte); no iteration is idle, and the encoded output is
non-empty. -/
theorem body_always_emits (flat : List Int) (h2 : 2 ≤ flat.length) :
    (∀ i, i + 1 < flat.length → ∃ it, body flat i = some it ∧
      ((it.kind = Kind.repeatRun ∧ it.out.length = 2) ∨
        (it.kind = Kind.literalRun ∧ 2 ≤ it.out.length))) ∧
    (∃ tr out, runs flat = some tr ∧ encode flat = some out ∧ tr ≠ [] ∧ out ≠ [] ∧
      ∀ it ∈ tr, it.kind ≠ Kind.idle ∧ it.out ≠ []) := by
  constructor
  · intro i hi
    rcases body_spec flat i hi with ⟨k, x, _, _, _, hb, _, _⟩ | ⟨k, hk1, hlen, hb, _, _⟩
    · exact ⟨_, hb, Or.inl ⟨rfl, rfl⟩⟩
    · refine ⟨_, hb, Or.inr ⟨rfl, ?_⟩⟩
      simp; omega
  · obtain ⟨tr, hr, hmem, _, _⟩ := runs_spec flat
    have hall : ∀ it ∈ tr, it.kind ≠ Kind.idle ∧ it.out ≠ [] := by
      intro it hit
      obtain ⟨hlt, hb⟩ := hmem it hit
      obtain ⟨it2, hb2, _, _, _, hk, ho⟩ := body_bounds flat it.start hlt
      rw [hb] at hb2
      have e := Option.some.inj hb2
      subst e
      exact ⟨hk, ho⟩
    have hne : tr ≠ [] := by
      intro he
      obtain ⟨it0, hb, _⟩ := body_bounds flat 0 (by omega)
      have h1 := runsLoop_step flat flat.length 0 it0 (by omega) hb
      unfold runs at hr
      rw [hr, he] at h1
      cases hx : runsLoop flat flat.length (it0.cursor + 1) with
      | none => rw [hx] at h1; simp at h1
      | some rest => rw [hx] at h1; simp at h1
    refine ⟨tr, bytesOf tr, hr, by rw [encode_eq_runs, hr]; rfl, hne, ?_, hall⟩
    cases tr with
    | nil => exact absurd rfl hne
    | cons it rest =>
      have := (hall it (List.mem_cons_self it rest)).2
      intro hb
      rw [bytesOf_cons] at hb
      exact this (List.append_eq_nil.mp hb).1

/-- Claim C13 at `[1, 2, 2]`. -/
theorem body_always_emits_witness :
    (∀ i, i + 1 < [1, 2, 2].length → ∃ it, body [1, 2, 2] i = some it ∧
      ((it.kind = Kind.repeatRun ∧ it.out.length = 2) ∨
        (it.kind = Kind.literalRun ∧ 2 ≤ it.out.length))) ∧
    (∃ tr out, runs [1, 2, 2] = some tr ∧ encode [1, 2, 2] = some out ∧ tr ≠ [] ∧ out ≠ [] ∧
      ∀ it ∈ tr, it.kind ≠ Kind.idle ∧ it.out ≠ []) :=
  body_always_emits [1, 2, 2] (by decide)

/-- Claim C12 fails at `[1, 2]`: the literal scan stops at the bound
`i < len(flat)-1` with the cursor on the last sample; the encoder emits the
literal record `[255, 1]` alone, so the sample `2` that follows the copied ones
has no successor, starts no run of identical values (against the comment on
line 113) and is in no record, and no repeat record is emitted next. -/
theorem literal_then_repeat_fails_at_end :
    runs [1, 2] = some [⟨Kind.literalRun, 0, [255, 1], 0⟩] ∧
    encode [1, 2] = some [255, 1] ∧
    ([1, 2] : List Int)[1]? = some 2 ∧ ([1, 2] : List Int)[2]? = none ∧
    ¬ (∀ tr, runs [1, 2] = some tr →
      ∀ pre it post, tr = pre ++ it :: post → it.kind = Kind.literalRun →
        ([1, 2] : List Int)[it.cursor + 2]? = ([1, 2] : List Int)[it.cursor + 1]? ∧
        ∃ nxt rest, post = nxt :: rest ∧ nxt.kind = Kind.repeatRun ∧
          nxt.start = it.cursor + 1) := by
  have hr : runs [1, 2] = some [⟨Kind.literalRun, 0, [255, 1], 0⟩] := by decide
  refine ⟨hr, by decide, by decide, by decide, ?_⟩
  intro h
  have := (h _ hr [] _ [] rfl rfl).1
  simp at this

/-- The size invariant of the outer loop: from any cursor `i`, three times the bytes
emitted are at most four times the samples left, with two to spare when the
iteration at `i` is a repeat record. -/
theorem runsLoop_size (flat : List Int) :
    ∀ (fuel i : Nat), i ≤ flat.length → flat.length + 1 ≤ fuel + i →
      ∃ tr, runsLoop flat fuel i = some tr ∧
        3 * (bytesOf tr).length ≤ 4 * (flat.length - i) ∧
        (i + 1 < flat.length → flat[i + 1]? = flat[i]? →
          3 * (bytesOf tr).length + 2 ≤ 4 * (flat.length - i)) := by
  intro fuel
  induction fuel with
  | zero => intro i hi hf; omega
  | succ fuel ih =>
    intro i hi hf
    by_cases h : i + 1 < flat.length
    · rcases body_spec flat i h with
        ⟨k, x, hk1, _, hlen, hb, _, _⟩ | ⟨k, hk1, hlen, hb, hall, hstop⟩
      · obtain ⟨tr, htr, hw, _⟩ := ih (i + k + 1) (by omega) (by omega)
        refine ⟨_ :: tr, runsLoop_cons flat fuel i _ tr h hb htr, ?_, ?_⟩
        · rw [bytesOf_cons]; simp only [List.length_append, List.length_cons, List.length_nil]
          omega
        · intro _ _
          rw [bytesOf_cons]; simp only [List.length_append, List.length_cons, List.length_nil]
          omega
      · have e : i + k - 1 + 1 = i + k := by omega
        have hpl : (((flat.drop i).take k).map toByte).length = k := by
          simp; omega
        by_cases hn : i + k + 1 < flat.length
        · obtain ⟨tr, htr, _, hs⟩ := ih (i + k) (by omega) (by omega)
          have heq : flat[i + k + 1]? = flat[i + k]? := by
            rcases hstop with h1 | h1
            · exact absurd hn h1
            · exact h1
          have hs2 := hs hn heq
          refine ⟨_ :: tr, runsLoop_cons flat fuel i _ tr h hb (by rw [e]; exact htr), ?_, ?_⟩
          · rw [bytesOf_cons]
            simp only [List.length_append, List.length_cons, hpl]
            omega
          · intro _ hsame
            exact absurd hsame (hall 0 hk1)
        · have hfuel : ∃ f, fuel = f + 1 := ⟨fuel - 1, by omega⟩
          obtain ⟨f, hf2⟩ := hfuel
          have htr : runsLoop flat fuel (i + k) = some [] := by
            rw [hf2]; exact runsLoop_done flat f (i + k) hn
          refine ⟨[_], runsLoop_cons flat fuel i _ [] h hb (by rw [e]; exact htr), ?_, ?_⟩
          · rw [bytesOf_cons]
            simp only [List.length_append, List.length_cons, hpl, bytesOf, List.length_nil]
            omega
          · intro _ hsame
            exact absurd hsame (hall 0 hk1)
    · refine ⟨[], runsLoop_done flat fuel i h, by simp [bytesOf], ?_⟩
      intro h1; exact absurd h1 h

/-- Claim C16 (worst-case expansion): for every input `s` the encoder returns a byte
sequence `e` with `3 * len(e) ≤ 4 * len(s)`. -/
theorem encode_expansion_bound (s : List Int) :
    ∃ e, encode s = some e ∧ 3 * e.length ≤ 4 * s.length := by
  obtain ⟨tr, htr, hw, _⟩ := runsLoop_size s (s.length + 1) 0 (Nat.zero_le _) (by omega)
  refine ⟨bytesOf tr, ?_, by omega⟩
  rw [encode_eq_runs]
  unfold runs
  rw [htr]; rfl

/-! ## Decoding the output of the encoder -/

/-- Bytes up to 127 are their own signed value. -/
theorem toInt8_small (c : Nat) (h : c ≤ 127) : toInt8 c = (c : Int) := by
  unfold toInt8; rw [if_pos (by omega)]

/-- The byte `256 - k` is `-k` as a signed value, for `1 ≤ k ≤ 128`. -/
theorem toInt8_neg (k : Nat) (h1 : 1 ≤ k) (h128 : k ≤ 128) : toInt8 (256 - k) = -(k : Int) := by
  unfold toInt8; rw [if_neg (by omega)]; omega

/-- The decoder on a repeat record followed by more bytes. -/
theorem decodeLoop_repeat (fuel c v : Nat) (rest : List Nat) (h1 : 1 ≤ c) (h127 : c ≤ 127) :
    decodeLoop (fuel + 1) (c :: v :: rest)
      = (decodeLoop fuel rest).map (fun tl => List.replicate c v ++ tl) := by
  have ht := toInt8_small c h127
  have hpos : (c : Int) > 0 := by omega
  simp only [decodeLoop, ht, if_pos hpos, Int.toNat_ofNat]

/-- The decoder on a literal record of at most 128 bytes followed by more bytes. -/
theorem decodeLoop_literal (fuel k : Nat) (payload rest : List Nat) (h1 : 1 ≤ k)
    (h128 : k ≤ 128) (hl : payload.length = k) :
    decodeLoop (fuel + 1) ((256 - k) :: (payload ++ rest))
      = (decodeLoop fuel rest).map (fun tl => payload ++ tl) := by
  have ht := toInt8_neg k h1 h128
  have hneg : ¬ -(k : Int) > 0 := by omega
  have hlt : -(k : Int) < 0 := by omega
  have hn : (-(-(k : Int))).toNat = k := by omega
  simp only [decodeLoop, ht, if_neg hneg, if_pos hlt, hn]
  rw [if_pos (by rw [List.length_append]; omega), ← hl, List.drop_left, List.take_left]

/-- The samples from `i` to `e` are those from `i` to `m` and then from `m` to `e`. -/
theorem seg_split (flat : List Int) (i m e : Nat) (h1 : i ≤ m) (h2 : m ≤ e) :
    (flat.drop i).take (e - i) = (flat.drop i).take (m - i) ++ (flat.drop m).take (e - m) := by
  have e1 : e - i = (m - i) + (e - m) := by omega
  rw [e1, List.take_add, List.drop_drop]
  have e2 : i + (m - i) = m := by omega
  have e3 : m - i + (e - m) - (m - i) = e - m := by omega
  simp [e2]

/-- A segment of `k` samples all equal to `x`. -/
theorem seg_replicate (flat : List Int) (i k : Nat) (x : Int)
    (hall : ∀ j, j < k → flat[i + j]? = some x) :
    (flat.drop i).take k = List.replicate k x := by
  apply List.ext_getElem?
  intro m
  rw [List.getElem?_take, List.getElem?_replicate]
  by_cases hm : m < k
  · rw [if_pos hm, if_pos hm, List.getElem?_drop]; exact hall m hm
  · rw [if_neg hm, if_neg hm]

/-- When no 129 consecutive samples each differ from their successor, the bytes of
the iterations from cursor `i` decode (spec section 4.2) to the samples from `i`
up to the cursor at loop exit, which is `len(flat)-1` or `len(flat)`. -/
theorem decode_trace (flat : List Int)
    (hcap : ∀ i, i + 129 < flat.length → ∃ j, j < 129 ∧ flat[i + j + 1]? = flat[i + j]?) :
    ∀ (fuel i : Nat), i ≤ flat.length → flat.length + 1 ≤ fuel + i →
      ∃ tr, runsLoop flat fuel i = some tr ∧
        i ≤ exitCursor i tr ∧ exitCursor i tr ≤ flat.length ∧
        flat.length ≤ exitCursor i tr + 1 ∧
        ∀ d, (bytesOf tr).length < d →
          decodeLoop d (bytesOf tr)
            = some (((flat.drop i).take (exitCursor i tr - i)).map toByte) := by
  intro fuel
  induction fuel with
  | zero => intro i hi hf; omega
  | succ fuel ih =>
    intro i hi hf
    by_cases h : i + 1 < flat.length
    · rcases body_spec flat i h with
        ⟨k, x, hk1, hk126, hlen, hb, hall, _⟩ | ⟨k, hk1, hlen, hb, hall, _⟩
      · obtain ⟨tr, htr, hge, hle, hend, hdec⟩ := ih (i + k + 1) (by omega) (by omega)
        refine ⟨_ :: tr, runsLoop_cons flat fuel i _ tr h hb htr, ?_, hle, hend, ?_⟩
        · show i ≤ exitCursor (i + k + 1) tr
          omega
        · intro d hd
          show decodeLoop d ([toByte ((k : Int) + 1), toByte x] ++ bytesOf tr)
            = some (((flat.drop i).take (exitCursor (i + k + 1) tr - i)).map toByte)
          have hc : toByte ((k : Int) + 1) = k + 1 := by unfold toByte; omega
          have hd2 : (bytesOf tr).length + 2 < d := by
            simpa [bytesOf_cons] using hd
          obtain ⟨d2, rfl⟩ : ∃ d2, d = d2 + 1 := ⟨d - 1, by omega⟩
          rw [hc]
          simp only [List.cons_append, List.nil_append]
          rw [decodeLoop_repeat d2 (k + 1) _ _ (by omega) (by omega), hdec d2 (by omega)]
          rw [seg_split flat i (i + k + 1) _ (by omega) hge]
          have e1 : i + k + 1 - i = k + 1 := by omega
          rw [e1, seg_replicate flat i (k + 1) x (fun j hj => hall j (by omega))]
          simp
      · have e : i + k - 1 + 1 = i + k := by omega
        obtain ⟨tr, htr, hge, hle, hend, hdec⟩ := ih (i + k) (by omega) (by omega)
        have hk128 : k ≤ 128 := by
          by_contra hgt
          obtain ⟨j, hj, heq⟩ := hcap i (by omega)
          exact hall j (by omega) heq
        refine ⟨_ :: tr, runsLoop_cons flat fuel i _ tr h hb (by rw [e]; exact htr),
          ?_, ?_, ?_, ?_⟩
        · show i ≤ exitCursor (i + k - 1 + 1) tr
          rw [e]; omega
        · show exitCursor (i + k - 1 + 1) tr ≤ flat.length
          rw [e]; exact hle
        · show flat.length ≤ exitCursor (i + k - 1 + 1) tr + 1
          rw [e]; exact hend
        · intro d hd
          show decodeLoop d ((toByte (-1 * (k : Int)) ::
              ((flat.drop i).take k).map toByte) ++ bytesOf tr)
            = some (((flat.drop i).take (exitCursor (i + k - 1 + 1) tr - i)).map toByte)
          have hpl : (((flat.drop i).take k).map toByte).length = k := by
            simp; omega
          have hd2 : (bytesOf tr).length + k + 1 < d := by
            have := hd
            rw [bytesOf_cons] at this
            simp only [List.length_append, List.length_cons, hpl] at this
            omega
          obtain ⟨d2, rfl⟩ : ∃ d2, d = d2 + 1 := ⟨d - 1, by omega⟩
          rw [e, toByte_neg k hk1 (by omega), List.cons_append,
            decodeLoop_literal d2 k _ _ hk1 hk128 hpl, hdec d2 (by omega)]
          rw [seg_split flat i (i + k) _ (by omega) hge]
          have e1 : i + k - i = k := by omega
          rw [e1]
          simp
    · refine ⟨[], runsLoop_done flat fuel i h, Nat.le_refl _, hi, by
        show flat.length ≤ i + 1
        omega, ?_⟩
      intro d hd
      obtain ⟨d2, rfl⟩ : ∃ d2, d = d2 + 1 := ⟨d - 1, by omega⟩
      simp [bytesOf, exitCursor, decodeLoop]

/-- Claim C14 (conditional round trip): for every `s` of length at least 2 with
samples in `0..255`, in which every window of 129 consecutive indices holds a
sample equal to its successor (so at most 128 consecutive samples differ from
their successor), the encoder returns, the decoder of spec section 4.2 accepts
its output, and the decoded sequence is `s` or `s` without its last element. -/
theorem conditional_roundtrip (s : List Int) (h2 : 2 ≤ s.length)
    (hrange : ∀ x ∈ s, 0 ≤ x ∧ x ≤ 255)
    (hcap : ∀ i, i + 129 < s.length → ∃ j, j < 129 ∧ s[i + j + 1]? = s[i + j]?) :
    ∃ out dec, encode s = some out ∧ specDecode out = some dec ∧
      (dec.map Int.ofNat = s ∨ dec.map Int.ofNat = s.dropLast) := by
  obtain ⟨tr, htr, _, hle, hend, hdec⟩ :=
    decode_trace s hcap (s.length + 1) 0 (Nat.zero_le _) (by omega)
  refine ⟨bytesOf tr, _, ?_, hdec _ (Nat.lt_succ_self _), ?_⟩
  · rw [encode_eq_runs]; unfold runs; rw [htr]; rfl
  · rw [List.drop_zero, Nat.sub_zero,
      map_toByte_cast _ (fun x hx => hrange x (List.mem_of_mem_take hx))]
    by_cases he : exitCursor 0 tr = s.length
    · left; rw [he, List.take_length]
    · right
      have : exitCursor 0 tr = s.length - 1 := by omega
      rw [this, List.dropLast_eq_take]

/-- Claim C14 at 200 copies of the sample `9`, where every sample but the last
equals its successor. -/
theorem conditional_roundtrip_witness :
    ∃ out dec, encode (List.replicate 200 9) = some out ∧ specDecode out = some dec ∧
      (dec.map Int.ofNat = List.replicate 200 9 ∨
        dec.map Int.ofNat = (List.replicate 200 9).dropLast) :=
  conditional_roundtrip (List.replicate 200 9) (by rw [List.length_replicate]; decide)
    (fun x hx => by rw [List.eq_of_mem_replicate hx]; decide)
    (fun i hi => ⟨0, by decide, by
      rw [List.length_replicate] at hi
      rw [List.getElem?_replicate, List.getElem?_replicate, if_pos (by omega), if_pos (by omega)]⟩)

/-- A non-empty sequence is a front part, whose last sample (if any) differs from
`x`, followed by its trailing run of `trailingRun s` copies of `x`. -/
theorem trailingRun_decomp (s : List Int) (hne : s ≠ []) :
    ∃ front x, s = front ++ List.replicate (trailingRun s) x ∧ 1 ≤ trailingRun s ∧
      ∀ y ∈ front.getLast?, y ≠ x := by
  cases hrev : s.reverse with
  | nil => exact absurd (List.reverse_eq_nil_iff.mp hrev) hne
  | cons x rest =>
    have hL : trailingRun s = 1 + (rest.takeWhile (fun y => y = x)).length := by
      unfold trailingRun; rw [hrev]
    have htw : rest.takeWhile (fun y => y = x)
        = List.replicate (rest.takeWhile (fun y => y = x)).length x := by
      apply List.eq_replicate_of_mem
      intro b hb
      have := List.mem_takeWhile_imp hb
      simpa using this
    have hsplit := List.takeWhile_append_dropWhile (fun y => decide (y = x)) rest
    refine ⟨(rest.dropWhile (fun y => y = x)).reverse, x, ?_, by omega, ?_⟩
    · have hs : s = (x :: rest).reverse := by rw [← hrev, List.reverse_reverse]
      rw [hL]
      conv_lhs => rw [hs, List.reverse_cons, ← hsplit]
      rw [List.reverse_append, List.append_assoc]
      congr 1
      rw [htw, List.reverse_replicate, List.length_replicate, Nat.add_comm 1,
        List.replicate_succ']
    · intro y hy
      rw [List.getLast?_reverse] at hy
      have hnot := List.head?_dropWhile_not (fun y => decide (y = x)) rest
      have hy2 : (List.dropWhile (fun y => decide (y = x)) rest).head? = some y := hy
      rw [hy2] at hnot
      simpa using hnot

/-- Started inside a block of equal samples that reaches the end of the input, the
loop leaves the cursor at `len(flat)-1` exactly when the number of samples left
is `1` modulo `127`, and at `len(flat)` otherwise. -/
theorem exit_in_block (flat : List Int) (p : Nat) (x : Int)
    (hblock : ∀ j, p ≤ j → j < flat.length → flat[j]? = some x) :
    ∀ (fuel i : Nat), p ≤ i → i ≤ flat.length → flat.length + 1 ≤ fuel + i →
      ∃ tr, runsLoop flat fuel i = some tr ∧
        exitCursor i tr
          = if (flat.length - i) % 127 = 1 then flat.length - 1 else flat.length := by
  intro fuel
  induction fuel with
  | zero => intro i _ hi hf; omega
  | succ fuel ih =>
    intro i hp hi hf
    by_cases h : i + 1 < flat.length
    · by_cases hk : flat.length - 1 - i ≤ 126
      · have hb := body_repeat flat i (flat.length - 1 - i) x (by omega) hk
          (fun j hj => hblock _ (by omega) (by omega)) (Or.inl (by omega))
        obtain ⟨tr, htr, hex⟩ := ih (i + (flat.length - 1 - i) + 1) (by omega) (by omega)
          (by omega)
        refine ⟨_ :: tr, runsLoop_cons flat fuel i _ tr h hb htr, ?_⟩
        show exitCursor (i + (flat.length - 1 - i) + 1) tr = _
        rw [hex]
        have e : i + (flat.length - 1 - i) + 1 = flat.length := by omega
        rw [e]
        split <;> split <;> omega
      · have hb := body_repeat flat i 126 x (by omega) (by omega)
          (fun j hj => hblock _ (by omega) (by omega)) (Or.inr (Or.inr rfl))
        obtain ⟨tr, htr, hex⟩ := ih (i + 126 + 1) (by omega) (by omega) (by omega)
        refine ⟨_ :: tr, runsLoop_cons flat fuel i _ tr h hb htr, ?_⟩
        show exitCursor (i + 126 + 1) tr = _
        rw [hex]
        split <;> split <;> omega
    · refine ⟨[], runsLoop_done flat fuel i h, ?_⟩
      show i = _
      split <;> omega

/-- Started at or before the first sample of the trailing block of equal samples,
the loop reaches that sample as the start of an iteration. -/
theorem exit_before_block (flat : List Int) (p : Nat) (x : Int) (hp : p < flat.length)
    (hblock : ∀ j, p ≤ j → j < flat.length → flat[j]? = some x)
    (hbefore : ∀ q, q + 1 = p → flat[q]? ≠ some x) :
    ∀ (fuel i : Nat), i ≤ p → flat.length + 1 ≤ fuel + i →
      ∃ tr, runsLoop flat fuel i = some tr ∧
        exitCursor i tr
          = if (flat.length - p) % 127 = 1 then flat.length - 1 else flat.length := by
  intro fuel
  induction fuel with
  | zero => intro i hi hf; omega
  | succ fuel ih =>
    intro i hi hf
    rcases Nat.eq_or_lt_of_le hi with heq | hlt
    · subst heq
      exact exit_in_block flat i x hblock (fuel + 1) i (Nat.le_refl _) (by omega) hf
    · have h : i + 1 < flat.length := by omega
      rcases body_spec flat i h with
        ⟨k, x2, hk1, _, hlen, hb, hall, _⟩ | ⟨k, hk1, hlen, hb, hall, _⟩
      · have hnext : i + k + 1 ≤ p := by
          by_contra hgt
          have h1 := hall (p - 1 - i) (by omega)
          have h2 := hall (p - i) (by omega)
          have e1 : i + (p - 1 - i) = p - 1 := by omega
          have e2 : i + (p - i) = p := by omega
          rw [e1] at h1
          rw [e2, hblock p (Nat.le_refl _) hp] at h2
          have hx : x2 = x := (Option.some.inj h2).symm
          rw [hx] at h1
          exact hbefore (p - 1) (by omega) h1
        obtain ⟨tr, htr, hex⟩ := ih (i + k + 1) hnext (by omega)
        exact ⟨_ :: tr, runsLoop_cons flat fuel i _ tr h hb htr, hex⟩
      · have e : i + k - 1 + 1 = i + k := by omega
        have hnext : i + k ≤ p := by
          by_contra hgt
          have h1 := hall (p - i) (by omega)
          have e2 : i + (p - i) = p := by omega
          rw [e2, hblock p (Nat.le_refl _) hp, hblock (p + 1) (by omega) (by omega)] at h1
          exact h1 rfl
        obtain ⟨tr, htr, hex⟩ := ih (i + k) hnext (by omega)
        refine ⟨_ :: tr, runsLoop_cons flat fuel i _ tr h hb (by rw [e]; exact htr), ?_⟩
        show exitCursor (i + k - 1 + 1) tr = _
        rw [e]; exact hex

/-- Claim C15 (when the last sample is lost): for every `s` of length at least 2
in which at most 128 consecutive samples differ from their successor, with `L` the
length of the maximal block of equal samples at the end of `s`, the decoded
encoding has the length of `s` exactly when `L mod 127 ≠ 1`, and is one element
shorter when `L mod 127 = 1`. -/
theorem last_sample_condition (s : List Int) (h2 : 2 ≤ s.length)
    (hcap : ∀ i, i + 129 < s.length → ∃ j, j < 129 ∧ s[i + j + 1]? = s[i + j]?) :
    ∃ out dec, encode s = some out ∧ specDecode out = some dec ∧
      (dec.length = s.length ↔ trailingRun s % 127 ≠ 1) ∧
      (trailingRun s % 127 = 1 → dec.length + 1 = s.length) := by
  have hne : s ≠ [] := by
    intro h; rw [h] at h2; simp at h2
  obtain ⟨front, x, hs, hL1, hlast⟩ := trailingRun_decomp s hne
  have hlen : s.length = front.length + trailingRun s := by
    conv_lhs => rw [hs]
    rw [List.length_append, List.length_replicate]
  have hblock : ∀ j, front.length ≤ j → j < s.length → s[j]? = some x := by
    intro j h1 hj
    rw [hs, List.getElem?_append_right h1, List.getElem?_replicate, if_pos (by omega)]
  have hbefore : ∀ q, q + 1 = front.length → s[q]? ≠ some x := by
    intro q hq hx
    have hq2 : q < front.length := by omega
    rw [hs, List.getElem?_append_left hq2] at hx
    have hl : front.getLast? = some x := by
      rw [List.getLast?_eq_getElem?]
      have : front.length - 1 = q := by omega
      rw [this]; exact hx
    exact hlast x hl rfl
  obtain ⟨tr, htr, _, hle, _, hdec⟩ :=
    decode_trace s hcap (s.length + 1) 0 (Nat.zero_le _) (by omega)
  obtain ⟨tr2, htr2, hex⟩ := exit_before_block s front.length x (by omega) hblock hbefore
    (s.length + 1) 0 (Nat.zero_le _) (by omega)
  rw [htr] at htr2
  have e := Option.some.inj htr2
  subst e
  have hdl : (((s.drop 0).take (exitCursor 0 tr - 0)).map toByte).length
      = exitCursor 0 tr := by
    simp; omega
  refine ⟨bytesOf tr, _, ?_, hdec _ (Nat.lt_succ_self _), ?_, ?_⟩
  · rw [encode_eq_runs]; unfold runs; rw [htr]; rfl
  · rw [hdl, hex]
    have e2 : s.length - front.length = trailingRun s := by omega
    rw [e2]
    split <;> omega
  · intro hm
    rw [hdl, hex]
    have e2 : s.length - front.length = trailingRun s := by omega
    rw [e2, if_pos hm]
    omega

/-- Claim C15 at `[7, 7, 3]`, whose trailing block has length 1: the last sample is lost. -/
theorem last_sample_condition_witness :
    ∃ out dec, encode [7, 7, 3] = some out ∧ specDecode out = some dec ∧
      (dec.length = [7, 7, 3].length ↔ trailingRun [7, 7, 3] % 127 ≠ 1) ∧
      (trailingRun [7, 7, 3] % 127 = 1 → dec.length + 1 = [7, 7, 3].length) :=
  last_sample_condition [7, 7, 3] (by decide) (fun i hi => absurd hi (by simp))

/-! ## Animation descriptors -/

/-- The 21 frames of the fade-in loop. -/
theorem fadeInLoop_eval (x y : Int) :
    fadeInLoop x y 22 0 []
      = some ([0, 5, 10, 15, 20, 25, 30, 35, 40, 45, 50, 55, 60, 65, 70, 75, 80, 85, 90,
          95, 100].map (fun o => (⟨x, y, 25, o⟩ : Frame))) := by
  simp [fadeInLoop]

/-- The 21 frames of the fade-out loop. -/
theorem fadeOutLoop_eval (x y : Int) :
    fadeOutLoop x y 22 100 []
      = some ([100, 95, 90, 85, 80, 75, 70, 65, 60, 55, 50, 45, 40, 35, 30, 25, 20, 15, 10,
          5, 0].map (fun o => (⟨x, y, 25, o⟩ : Frame))) := by
  simp [fadeOutLoop]

/-- Claim C18 (logo animation frames): for every `w` and `h`, `genLogo` declares 21
frames for each animation; the fade-in prints exactly 21 frames, all at
`x = 128 - w/2`, `y = 32 - h/2` (Go's truncating division) with duration 25 and
opacities `0, 5, ..., 100` in this order, and the `_reversed` animation prints
the same 21 frames in reverse order. -/
theorem genLogo_frames (w h : Int) :
    ∃ fadeIn fadeOut, genLogo w h = some (⟨21, fadeIn⟩, ⟨21, fadeOut⟩) ∧
      fadeIn.length = 21 ∧ fadeOut.length = 21 ∧
      fadeIn = [0, 5, 10, 15, 20, 25, 30, 35, 40, 45, 50, 55, 60, 65, 70, 75, 80, 85, 90,
          95, 100].map (fun o => (⟨128 - Int.tdiv w 2, 32 - Int.tdiv h 2, 25, o⟩ : Frame)) ∧
      fadeOut = fadeIn.reverse := by
  have hx : Int.tdiv screenWidth 2 = 128 := by decide
  have hy : Int.tdiv screenHeight 2 = 32 := by decide
  refine ⟨_, [100, 95, 90, 85, 80, 75, 70, 65, 60, 55, 50, 45, 40, 35, 30, 25, 20, 15, 10,
          5, 0].map (fun o => (⟨128 - Int.tdiv w 2, 32 - Int.tdiv h 2, 25, o⟩ : Frame)),
    ?_, ?_, ?_, rfl, ?_⟩
  · unfold genLogo
    simp only [fadeInLoop_eval, fadeOutLoop_eval, hx, hy]
  · simp
  · simp
  · simp

/-- The mid-to-right loop prints one frame per step up to `x + w = 255`. -/
theorem rightLoop_run (w y : Int) :
    ∀ (n fuel : Nat) (x : Int) (frames : List Frame), n < fuel → x + w + n = 255 →
      ∃ fr, rightLoop w y fuel x frames = some (x + n, fr) ∧
        fr.length = frames.length + n := by
  intro n
  induction n with
  | zero =>
    intro fuel x frames hf hx
    obtain ⟨f, rfl⟩ : ∃ f, fuel = f + 1 := ⟨fuel - 1, by omega⟩
    have hc : ¬ (x + w < screenWidth - 1) := by unfold screenWidth; omega
    exact ⟨frames, by rw [rightLoop, if_neg hc]; simp, rfl⟩
  | succ n ih =>
    intro fuel x frames hf hx
    obtain ⟨f, rfl⟩ : ∃ f, fuel = f + 1 := ⟨fuel - 1, by omega⟩
    have hc : x + w < screenWidth - 1 := by unfold screenWidth; omega
    obtain ⟨fr, h1, h2⟩ := ih f (x + 1) (frames ++ [⟨x, y, 75, 60⟩]) (by omega) (by omega)
    refine ⟨fr, ?_, ?_⟩
    · rw [rightLoop, if_pos hc, h1]
      congr 2
      push_cast; omega
    · rw [h2, List.length_append]; simp; omega

/-- The right-to-left loop prints `x + 1` frames and leaves `x = -1`. -/
theorem leftLoop_run (y : Int) :
    ∀ (n fuel : Nat) (x : Int) (frames : List Frame), n < fuel → x + 1 = n →
      ∃ fr, leftLoop y fuel x frames = some (-1, fr) ∧ fr.length = frames.length + n := by
  intro n
  induction n with
  | zero =>
    intro fuel x frames hf hx
    obtain ⟨f, rfl⟩ : ∃ f, fuel = f + 1 := ⟨fuel - 1, by omega⟩
    have hc : ¬ (x ≥ 0) := by omega
    have hx1 : x = -1 := by omega
    exact ⟨frames, by rw [leftLoop, if_neg hc, hx1], rfl⟩
  | succ n ih =>
    intro fuel x frames hf hx
    obtain ⟨f, rfl⟩ : ∃ f, fuel = f + 1 := ⟨fuel - 1, by omega⟩
    have hc : x ≥ 0 := by omega
    obtain ⟨fr, h1, h2⟩ := ih f (x - 1) (frames ++ [⟨x, y, 75, 60⟩]) (by omega) (by omega)
    refine ⟨fr, by rw [leftLoop, if_pos hc, h1], ?_⟩
    rw [h2, List.length_append]; simp; omega

/-- The left-to-mid loop prints one frame per step up to `startX`. -/
theorem midLoop_run (startX y : Int) :
    ∀ (n fuel : Nat) (x : Int) (frames : List Frame), n < fuel → x + n = startX + 1 →
      ∃ fr, midLoop startX y fuel x frames = some (startX + 1, fr) ∧
        fr.length = frames.length + n := by
  intro n
  induction n with
  | zero =>
    intro fuel x frames hf hx
    obtain ⟨f, rfl⟩ : ∃ f, fuel = f + 1 := ⟨fuel - 1, by omega⟩
    have hc : ¬ (x ≤ startX) := by omega
    have hx1 : x = startX + 1 := by omega
    exact ⟨frames, by rw [midLoop, if_neg hc, hx1], rfl⟩
  | succ n ih =>
    intro fuel x frames hf hx
    obtain ⟨f, rfl⟩ : ∃ f, fuel = f + 1 := ⟨fuel - 1, by omega⟩
    have hc : x ≤ startX := by omega
    obtain ⟨fr, h1, h2⟩ := ih f (x + 1) (frames ++ [⟨x, y, 75, 60⟩]) (by omega) (by omega)
    refine ⟨fr, by rw [midLoop, if_pos hc, h1], ?_⟩
    rw [h2, List.length_append]; simp; omega

/-- Claim C17 (screensaver frame count): for every width `0 ≤ w ≤ 254` and every
height, `genScreensaver` returns, the frame count it declares is `512 - 2*w`, and
its three loops print exactly that many frames. -/
theorem genScreensaver_frame_count (w h : Int) (h0 : 0 ≤ w) (h254 : w ≤ 254) :
    ∃ frames, genScreensaver w h = some ⟨512 - 2 * w, frames⟩ ∧
      (frames.length : Int) = 512 - 2 * w := by
  have hx : Int.tdiv screenWidth 2 = 128 := by decide
  have hq : Int.tdiv w 2 = w / 2 := Int.tdiv_eq_ediv h0 (by decide)
  have hsw : screenWidth = 256 := rfl
  obtain ⟨fr1, e1, l1⟩ := rightLoop_run w (Int.tdiv screenHeight 2 - Int.tdiv h 2)
    (127 - w + w / 2).toNat ((screenWidth - 1 - (128 - w / 2 + w)).toNat + 1) (128 - w / 2) []
    (by rw [hsw]; omega) (by omega)
  have hx1 : 128 - w / 2 + ((127 - w + w / 2).toNat : Int) = 255 - w := by omega
  rw [hx1] at e1
  obtain ⟨fr2, e2, l2⟩ := leftLoop_run (Int.tdiv screenHeight 2 - Int.tdiv h 2)
    (256 - w).toNat ((255 - w + 1).toNat + 1) (255 - w) fr1 (by omega) (by omega)
  obtain ⟨fr3, e3, l3⟩ := midLoop_run (128 - w / 2) (Int.tdiv screenHeight 2 - Int.tdiv h 2)
    (129 - w / 2).toNat ((128 - w / 2 + 1).toNat + 1) 0 fr2 (by omega) (by omega)
  refine ⟨fr3, ?_, ?_⟩
  · unfold genScreensaver
    simp only [hx, hq, e1, e2, e3]
    congr 2
    rw [hsw]; omega
  · rw [l3, l2, l1]
    simp only [List.length_nil]
    omega

/-- Claim C17 at `w = 254`: four frames. -/
theorem genScreensaver_frame_count_witness :
    ∃ frames, genScreensaver 254 7 = some ⟨512 - 2 * 254, frames⟩ ∧
      (frames.length : Int) = 512 - 2 * 254 :=
  genScreensaver_frame_count 254 7 (by decide) (by decide)

/-! ## Width and height of a header-less image -/

/-- Claim C11 fails at the header-less text `1 2\n3 4` (two lines of two integer
tokens each): `parseWidthHeight` returns as width the length in bytes of the
first line, `3`, and as height the number of pieces `strings.Split` produced, `2`,
while the flatten loop appends `4` samples; `3 * 2 ≠ 4`. -/
theorem headerless_width_is_byte_length :
    readImage "1 2\n3 4".toList = some (3, 2, [1, 2, 3, 4]) ∧
    (fields "1 2".toList).length = 2 ∧
    (3 : Int) * 2 ≠ (([1, 2, 3, 4] : List Int).length : Int) := by
  decide

end PgmToRle
